import Mathlib

/-!
Verification development for `src/scripts/rollup/components.js`, the
build-time catalog-enrichment plugin: cache-backed fetchers for npm,
GitHub and GitLab metadata, a record-merge engine with a tag filter,
and a batched enrichment loop.

The JavaScript is shallowly embedded: JS values become the inductive
`JsValue`, objects become insertion-ordered association lists of fields,
thrown exceptions become `Except String`, and the asynchronous effect
state (disk cache, counters of cache reads, cache writes, remote calls)
becomes an explicit `St` record threaded through the functions.  The
remote services (npm registry, Octokit, Gitbeaker) are external
collaborators and are modelled as an oracle `Remote`; the platform JSON
codec (`JSON.stringify`/`JSON.parse`) is likewise external and is
modelled by storing the parsed form in the cache, using that the codec
round-trips on JSON-representable values.
-/

/-- A JavaScript runtime value, restricted to the shapes this plugin
manipulates (JSON-representable data plus `undefined`). -/
inductive JsValue where
  | undefined
  | null
  | bool (b : Bool)
  | num (n : Int)
  | str (s : String)
  | arr (elems : List JsValue)
  | obj (fields : List (String × JsValue))

/-- A JavaScript object as an insertion-ordered field list. -/
abbrev Obj := List (String × JsValue)

/-- `Object.keys` of an object. -/
def objKeys (o : Obj) : List String := o.map Prod.fst

/-- Property read `o[k]`: the first binding of `k`, `undefined` if absent. -/
def objGet (o : Obj) (k : String) : JsValue :=
  match o.find? (fun p => p.1 == k) with
  | some p => p.2
  | none => .undefined

/-- Property write `o[k] = v`: overwrite the binding in place if the key
exists (JS keeps the original insertion position), else append. -/
def objSet (o : Obj) (k : String) (v : JsValue) : Obj :=
  match o with
  | [] => [(k, v)]
  | (k', v') :: rest => if k' == k then (k, v) :: rest else (k', v') :: objSet rest k v

/-- JS truthiness of a value (`[]` and `{}` are truthy). -/
def jsTruthy : JsValue → Bool
  | .undefined => false
  | .null => false
  | .bool b => b
  | .num n => n != 0
  | .str s => s != ""
  | .arr _ => true
  | .obj _ => true

/-- JS `a || b`. -/
def jsOr (a b : JsValue) : JsValue := if jsTruthy a then a else b

/-- Whether `sub` is a prefix of `l` (Boolean, executable). -/
def isPrefOf : List Char → List Char → Bool
  | [], _ => true
  | _ :: _, [] => false
  | a :: as, b :: bs => a == b && isPrefOf as bs

/-- Whether `sub` occurs as a contiguous substring of `l`
(JS `String.prototype.includes`). -/
def hasSub (sub : List Char) : List Char → Bool
  | [] => isPrefOf sub []
  | l@(_ :: xs) => isPrefOf sub l || hasSub sub xs

/-- The skip test of `merge` (components.js line 180):
`value === undefined || value === null || value === [] || value === ''`.
The `value === []` comparison is a reference equality against a fresh
array literal and is therefore always `false`; it contributes no case. -/
def skipVal : JsValue → Bool
  | .undefined => true
  | .null => true
  | .str s => s == ""
  | _ => false

/-- `tag.includes('svelte')` requires `tag` to be a string; on any other
value the method lookup throws a `TypeError`. -/
def tagKeep : JsValue → Except String Bool
  | .str s => .ok (!hasSub "svelte".toList s.toList)
  | _ => .error "TypeError: tag.includes is not a function"

/-- `[...].filter(tag => !tag.includes('svelte'))` over the element list. -/
def filterTags : List JsValue → Except String (List JsValue)
  | [] => .ok []
  | v :: vs => do
      let keep ← tagKeep v
      let rest ← filterTags vs
      pure (if keep then v :: rest else rest)

/-- Array spread `[...v]`: elements of an array, characters of a string,
a `TypeError` otherwise. -/
def spreadArr : JsValue → Except String (List JsValue)
  | .arr l => .ok l
  | .str s => .ok (s.toList.map fun c => .str (String.singleton c))
  | _ => .error "TypeError: value is not iterable"

/-- One iteration of the `Object.entries(additional).forEach` body of
`merge` (components.js lines 179-191) acting on the accumulating object
`nd`:
skip falsy scalars; assign keys not yet present; on an already-present
`tags` key with an array value, replace `tags` by
`[...(newData.tags || []), ...value].filter(tag => !tag.includes('svelte'))`;
leave every other already-present key untouched.  `mergeTags` is the
already-present-`tags` branch (components.js line 188), with exception
propagation made explicit. -/
def mergeTags (nd : Obj) (v : JsValue) : Except String Obj :=
  match v with
  | .arr velems =>
      match spreadArr (jsOr (objGet nd "tags") (.arr [])) with
      | .error e => .error e
      | .ok curElems =>
          match filterTags (curElems ++ velems) with
          | .error e => .error e
          | .ok filtered => .ok (objSet nd "tags" (.arr filtered))
  | _ => .ok nd

def mergeStep (nd : Obj) (k : String) (v : JsValue) : Except String Obj :=
  if skipVal v then .ok nd
  else if !(objKeys nd).contains k then .ok (objSet nd k v)
  else if k == "tags" then mergeTags nd v
  else .ok nd

/-- Sequential `forEach` over the entries of `additional`; an exception
thrown by the callback aborts the iteration and propagates. -/
def mergeFold (nd : Obj) : List (String × JsValue) → Except String Obj
  | [] => .ok nd
  | (k, v) :: rest =>
      match mergeStep nd k v with
      | .error e => .error e
      | .ok nd' => mergeFold nd' rest

/-- `merge(base, additional)` (components.js lines 176-194).  The
`Object.assign({}, base)` shallow copy is the value `base` itself in
this pure model. -/
def merge (base additional : Obj) : Except String Obj :=
  mergeFold base additional

example :
    merge [("tags", .arr [.str "ui", .str "svelte-icons"])]
      [("tags", .arr [.str "framework", .str "svelte"])]
      = .ok [("tags", .arr [.str "ui", .str "framework"])] := rfl

example : merge [("title", .str "A")] [("title", .str "B")]
    = .ok [("title", .str "A")] := rfl

/-- JS `String.prototype.replace` with a single-character string pattern:
replace only the first occurrence of `c` by `rep`. -/
def replFirst (c : Char) (rep : List Char) : List Char → List Char
  | [] => []
  | x :: xs => if x == c then rep ++ xs else x :: replFirst c rep xs

/-- The key normalization of `getData` (components.js lines 32-34):
`cacheKey.replace('@', '--AT--').replace('/', '--SLASH--')`. -/
def normKeyL (l : List Char) : List Char :=
  replFirst '/' "--SLASH--".toList (replFirst '@' "--AT--".toList l)

/-- String-level wrapper of `normKeyL`. -/
def normKey (s : String) : String := ⟨normKeyL s.toList⟩

/-- The effect state threaded through the asynchronous plugin code: the
disk cache (normalized key to stored JSON-representable value, the
parsed form of the serialized `data` field) and counters of cache reads
(`cache.get`), cache write attempts (`cache.set`) and producer
invocations (each producer performs the one outbound remote call). -/
structure St where
  cache : List (String × JsValue)
  gets : Nat
  sets : Nat
  prodCalls : Nat

/-- Cache read: first entry stored under the key, if any. -/
def lookupC (c : List (String × JsValue)) (k : String) : Option JsValue :=
  (c.find? (fun p => p.1 == k)).map Prod.snd

/-- `getData(cacheKey, valueGetter)` (components.js lines 31-45):
normalize the key, try the cache (a read fault or deserialization fault
is swallowed and treated as a miss), on a hit return the deserialized
stored value, on a miss invoke the producer, fire-and-forget a cache
write of the serialized result, and return the fresh value.  The
producer is deterministic, so it is modelled by the value it returns;
`setOk` models whether the un-awaited `cache.set` call succeeds — its
failure can neither change the returned value nor surface to the
caller, because the promise is never awaited. -/
def getData (setOk : Bool) (rawKey : String) (producer : JsValue) (st : St) :
    JsValue × St :=
  let key := normKey rawKey
  match lookupC st.cache key with
  | some v => (v, { st with gets := st.gets + 1 })
  | none =>
      let cache' := if setOk then objSet st.cache key producer else st.cache
      (producer,
        { cache := cache', gets := st.gets + 1, sets := st.sets + 1,
          prodCalls := st.prodCalls + 1 })

/-- Raw (pre-normalization) cache key of the npm fetcher:
`` `npm-${packageName}` ``. -/
def npmRawKey (name : String) : String := "npm-" ++ name

/-- Raw cache key of the GitHub fetcher: `` `github-${owner}-${repo}` ``. -/
def ghRawKey (owner repo : String) : String := "github-" ++ owner ++ "-" ++ repo

/-- Raw cache key of the GitLab fetcher: `` `gitlab-${owner}-${repo}` ``. -/
def glRawKey (owner repo : String) : String := "gitlab-" ++ owner ++ "-" ++ repo

mutual

/-- JS string coercion as performed by a template literal, for the value
shapes of `JsValue` (arrays join their coerced elements with commas). -/
def jsTemplate : JsValue → String
  | .undefined => "undefined"
  | .null => "null"
  | .bool b => cond b "true" "false"
  | .num n => toString n
  | .str s => s
  | .arr es => jsTemplateList es
  | .obj _ => "[object Object]"

/-- Comma-joined coercion of array elements. -/
def jsTemplateList : List JsValue → String
  | [] => ""
  | [v] => jsTemplate v
  | v :: vs => jsTemplate v ++ "," ++ jsTemplateList vs

end

/-- Response of the npm registry lookup (`package-json` with
`fullMetadata`), restricted to the fields the fetcher reads.  `repoUrl`
is the value of the guarded access
`npmInfo.repository && npmInfo.repository.url`. -/
structure NpmData where
  description : JsValue
  keywords : JsValue
  homepage : JsValue
  name : JsValue
  repoUrl : JsValue

/-- Response of `github.repos.get`, restricted to the fields read. -/
structure GhData where
  stars : JsValue
  description : JsValue
  name : JsValue
  homepage : JsValue

/-- Response of `gitlab.show`, restricted to the fields read. -/
structure GlData where
  stars : JsValue
  description : JsValue
  name : JsValue
  webUrl : JsValue
  tagList : JsValue

/-- The remote services, as oracles from request parameters to either a
response (`some`) or a fetch failure (`none`).  They are pure: a given
request always produces the same outcome, matching the determinism the
cache layer relies on. -/
structure Remote where
  npm : String → Option NpmData
  gh : String → String → Option GhData
  gl : String → String → Option GlData

/-- The all-absent npm record built in the `catch` branch of
`getNpmInfo` (components.js lines 68-74), field order as written. -/
def npmNullRecord : Obj :=
  [("description", .null), ("tags", .arr []), ("repo", .null),
   ("url", .null), ("title", .null)]

/-- `s.startsWith(pre)`. -/
def strStarts (pre s : String) : Bool := isPrefOf pre.toList s.toList

/-- `s.endsWith(suf)`. -/
def strEnds (suf s : String) : Bool := isPrefOf suf.toList.reverse s.toList.reverse

/-- `.replace(/^git\+/, '')`: strip one leading `git+`. -/
def stripGitPlus (s : String) : String :=
  if strStarts "git+" s then ⟨s.toList.drop 4⟩ else s

/-- `.replace(/\.git$/, '')`: strip one trailing `.git`. -/
def stripDotGit (s : String) : String :=
  if strEnds ".git" s then ⟨s.toList.take (s.toList.length - 4)⟩ else s

/-- The npm record built from a successful registry response
(components.js lines 56-66): the declared repository URL is coerced to
`''` when the guarded access is falsy, stripped of a leading `git+` and
a trailing `.git`, and an empty result becomes `null`; a non-string
truthy `repository.url` makes `.replace` throw inside the `try`, which
the `catch` collapses to the all-absent record. -/
def npmRecord (d : NpmData) : Obj :=
  match jsOr d.repoUrl (.str "") with
  | .str s =>
      let s' := stripDotGit (stripGitPlus s)
      let repo : JsValue := if s' == "" then .null else .str s'
      [("description", d.description), ("tags", d.keywords),
       ("url", d.homepage), ("repo", repo), ("title", d.name)]
  | _ => npmNullRecord

/-- `getNpmInfo(packageName)` (components.js lines 52-77): a cache-backed
lookup under `npm-<packageName>`; every failure path of the producer is
caught and collapsed to the all-absent record, so the function itself
never throws. -/
def getNpmInfo (remote : Remote) (nameV : JsValue) (st : St) : JsValue × St :=
  let nameS := jsTemplate nameV
  let producer : JsValue :=
    match remote.npm nameS with
    | some d => .obj (npmRecord d)
    | none => .obj npmNullRecord
  getData true (npmRawKey nameS) producer st

/-- The empty GitHub `InfoRecord` (components.js lines 85-90), field
order as written; the `.catch` default of the API call maps to the same
record. -/
def ghEmpty : Obj :=
  [("stars", .null), ("description", .null), ("title", .null), ("url", .null)]

/-- The empty GitLab `InfoRecord` (components.js lines 132-138); the
`.catch` default of `gitlab.show` maps to the same record. -/
def glEmpty : Obj :=
  [("stars", .null), ("description", .null), ("title", .null), ("url", .null),
   ("tags", .arr [])]

/-- The GitHub URL guard (components.js lines 92-96): the three accepted
address forms. -/
def isGhUrl (u : String) : Bool :=
  strStarts "https://github.com/" u || strStarts "ssh://git@github.com/" u
    || strStarts "git://github.com/" u

/-- The GitLab URL guard (components.js line 139): a single scheme. -/
def isGlUrl (u : String) : Bool := strStarts "https://gitlab.com/" u

/-- The capture groups `([^\/]+)\/([^\/]+)` applied after the fixed part
of the URL regexes: a nonempty slash-free owner segment, a slash, and a
nonempty slash-free repository segment (the match is not anchored at the
end, so anything after the second segment is ignored).  `none` is a
failed regex match. -/
def extractOwnerRepo (rest : List Char) : Option (String × String) :=
  let owner := rest.takeWhile (· != '/')
  match owner, rest.drop owner.length with
  | [], _ => none
  | _ :: _, '/' :: r2 =>
      let repo := r2.takeWhile (· != '/')
      match repo with
      | [] => none
      | _ :: _ => some (⟨owner⟩, ⟨repo⟩)
  | _ :: _, _ => none

/-- The GitHub regex (components.js line 98) under the `isGhUrl` guard:
the fixed alternation consumes exactly the guard's literal prefix, after
which the two capture groups apply. -/
def ghExtract (u : String) : Option (String × String) :=
  if strStarts "https://github.com/" u then extractOwnerRepo (u.toList.drop 19)
  else if strStarts "ssh://git@github.com/" u then extractOwnerRepo (u.toList.drop 21)
  else if strStarts "git://github.com/" u then extractOwnerRepo (u.toList.drop 17)
  else none

/-- The GitLab regex (components.js line 141) under the `isGlUrl` guard. -/
def glExtract (u : String) : Option (String × String) :=
  if strStarts "https://gitlab.com/" u then extractOwnerRepo (u.toList.drop 19)
  else none

/-- `getGithubInfo(url)` (components.js lines 84-124).  An absent URL or
a URL failing the guard short-circuits to the empty record with the
state untouched.  Past the guard, `regex.exec` can return `null` (one
path segment only), and the unguarded `data[1]` then throws a
`TypeError` that escapes the function — modelled as `.error`.  On a
successful extraction the result is a cache-backed lookup whose producer
collapses every API failure to the all-`null` record. -/
def getGithubInfo (remote : Remote) (url : JsValue) (st : St) :
    Except String JsValue × St :=
  match url with
  | .undefined => (.ok (.obj ghEmpty), st)
  | .null => (.ok (.obj ghEmpty), st)
  | .str u =>
      if !isGhUrl u then (.ok (.obj ghEmpty), st)
      else
        match ghExtract u with
        | none => (.error "TypeError: cannot read property 1 of null", st)
        | some (owner, repo) =>
            let producer : JsValue :=
              match remote.gh owner repo with
              | some d =>
                  .obj [("stars", d.stars), ("description", d.description),
                        ("title", d.name), ("url", d.homepage)]
              | none => .obj ghEmpty
            let (v, st') := getData true (ghRawKey owner repo) producer st
            (.ok v, st')
  | _ => (.error "TypeError: url.startsWith is not a function", st)

/-- `getGitlabInfo(url)` (components.js lines 131-167), analogous to the
GitHub variant but with one accepted scheme and a `tags` field. -/
def getGitlabInfo (remote : Remote) (url : JsValue) (st : St) :
    Except String JsValue × St :=
  match url with
  | .undefined => (.ok (.obj glEmpty), st)
  | .null => (.ok (.obj glEmpty), st)
  | .str u =>
      if !isGlUrl u then (.ok (.obj glEmpty), st)
      else
        match glExtract u with
        | none => (.error "TypeError: cannot read property 1 of null", st)
        | some (owner, repo) =>
            let producer : JsValue :=
              match remote.gl owner repo with
              | some d =>
                  .obj [("stars", d.stars), ("description", d.description),
                        ("title", d.name), ("url", d.webUrl),
                        ("tags", d.tagList)]
              | none => .obj glEmpty
            let (v, st') := getData true (glRawKey owner repo) producer st
            (.ok v, st')
  | _ => (.error "TypeError: url.startsWith is not a function", st)

/-- `Object.entries(v)`: the field list of an object, indexed entries of
an array or string, the empty list for other primitives, and a
`TypeError` for `null`/`undefined`. -/
def jsEntries : JsValue → Except String Obj
  | .obj fs => .ok fs
  | .arr es => .ok (es.enum.map fun p => (toString p.1, p.2))
  | .str s => .ok (s.toList.enum.map fun p => (toString p.1, .str (String.singleton p.2)))
  | .num _ => .ok []
  | .bool _ => .ok []
  | .null => .error "TypeError: cannot convert null to object"
  | .undefined => .error "TypeError: cannot convert undefined to object"

/-- `updateItem(item)` (components.js lines 203-212): merge the npm info
when the item declares an `npm` key, then merge GitHub info keyed off
`item.repo || item.url` of the partially merged item, then GitLab info
likewise.  An exception thrown anywhere rejects the item's task;
effect-state changes made before the throw persist. -/
def updateItem (remote : Remote) (it : Obj) (st : St) : Except String Obj × St :=
  let (e1, st1) :=
    if (objKeys it).contains "npm" then
      let (v, st') := getNpmInfo remote (objGet it "npm") st
      (jsEntries v >>= fun fs => merge it fs, st')
    else (.ok it, st)
  match e1 with
  | .error m => (.error m, st1)
  | .ok it1 =>
      let (e2, st2) :=
        getGithubInfo remote (jsOr (objGet it1 "repo") (objGet it1 "url")) st1
      match e2 with
      | .error m => (.error m, st2)
      | .ok gv =>
          match jsEntries gv >>= fun fs => merge it1 fs with
          | .error m => (.error m, st2)
          | .ok it2 =>
              let (e3, st3) :=
                getGitlabInfo remote (jsOr (objGet it2 "repo") (objGet it2 "url")) st2
              match e3 with
              | .error m => (.error m, st3)
              | .ok lv =>
                  match jsEntries lv >>= fun fs => merge it2 fs with
                  | .error m => (.error m, st3)
                  | .ok it3 => (.ok it3, st3)

/-- `promise.map(result => result.value)` applied to one settled task of
`Promise.allSettled`: a fulfilled task contributes its value, a rejected
task has no `value` property and contributes `undefined`. -/
def settleVal : Except String Obj → JsValue
  | .ok o => .obj o
  | .error _ => .undefined

/-- One batch of item tasks.  The tasks are launched together and all
settle before the splice; the shared cache state is threaded through a
fixed left-to-right interleaving (the properties proved below concern
per-position results and lengths, which are the same under every
interleaving of the cooperative scheduler). -/
def runBatch (remote : Remote) : List Obj → St → List JsValue × St
  | [], st => ([], st)
  | it :: rest, st =>
      let (r, st') := updateItem remote it st
      let (vs, st'') := runBatch remote rest st'
      (settleVal r :: vs, st'')

/-- The chunked enrichment loop (components.js lines 226-234): process
`ceil(n/10)` batches of 10 strictly in sequence, splicing each batch's
settled values back over the slice it came from.  Since every splice
preserves length and only rewrites its own slice, the loop equals
processing successive `take 10` chunks and concatenating. -/
def enrichAll (remote : Remote) (st : St) : List Obj → List JsValue × St
  | [] => ([], st)
  | it :: rest =>
      let (vs, st') := runBatch remote ((it :: rest).take 10) st
      let (vs', st'') := enrichAll remote st' ((it :: rest).drop 10)
      (vs ++ vs', st'')
  termination_by l => l.length
  decreasing_by simp [List.length_drop]; omega

/-- The effect state after the tasks of the first `j` items have run, in
the loop's threading order. -/
def stBefore (remote : Remote) (st : St) (items : List Obj) (j : Nat) : St :=
  (items.take j).foldl (fun s it => (updateItem remote it s).2) st

/-- The fixed warning text of the transform's catch handler. -/
def couldNotParseMsg : String := "Could not parse JSON file"

/-- `/[\d]/.exec(err.message)`: the first decimal digit of the message. -/
def firstDigitChar (msg : String) : Option Char :=
  msg.toList.find? (fun c => c.isDigit)

/-- The fields of the warning object `{message, id, position}` passed to
`this.warn`. -/
structure WarnObj where
  message : String
  id : String
  position : Nat

/-- The catch handler of `transform` (components.js lines 242-246): on a
caught error it computes `parseInt(/[\d]/.exec(err.message)[0], 10)` and
warns; when the message contains no digit, `exec` returns `null` and the
index access `[0]` itself throws a `TypeError`, which escapes the
transform (`.ok w` means `this.warn(w)` runs and the transform returns
`null`; `.error` means the exception propagates out of `transform`). -/
def transformCatch (errMessage id : String) : Except String WarnObj :=
  match firstDigitChar errMessage with
  | some c => .ok ⟨couldNotParseMsg, id, c.toNat - '0'.toNat⟩
  | none => .error "TypeError: cannot read property 0 of null"

example :
    transformCatch "Unexpected token a in JSON at position 5" "f.json"
      = .ok ⟨couldNotParseMsg, "f.json", 5⟩ := rfl

/-- A JS value as stored in a heap cell: primitives are immediate,
objects and arrays are references into the heap.  This refined model of
`merge` makes mutation observable, so that the frame property (neither
argument is mutated) is a real statement. -/
inductive HVal where
  | undefined
  | null
  | bool (b : Bool)
  | num (n : Int)
  | str (s : String)
  | ref (a : Nat)

/-- A heap-allocated JS object or array. -/
inductive HObj where
  | fieldsOf (fields : List (String × HVal))
  | arrOf (elems : List HVal)

/-- The heap: addresses are list indices, allocation appends. -/
abbrev Heap := List HObj

/-- Field update on a heap-level field list (JS keeps the position of an
existing key, appends a new one). -/
def setField : List (String × HVal) → String → HVal → List (String × HVal)
  | [], k, v => [(k, v)]
  | (k', v') :: rest, k, v =>
      if k' == k then (k, v) :: rest else (k', v') :: setField rest k v

/-- Field read, `undefined` when absent. -/
def getField (fs : List (String × HVal)) (k : String) : HVal :=
  match fs.find? (fun p => p.1 == k) with
  | some p => p.2
  | none => .undefined

/-- Write one field of the object at address `a`; in `mergeH` the target
is always the freshly allocated copy, so the fall-through case is
unreachable there. -/
def heapSetField (h : Heap) (a : Nat) (k : String) (v : HVal) : Heap :=
  match h.get? a with
  | some (.fieldsOf fs) => h.set a (.fieldsOf (setField fs k v))
  | _ => h

/-- The field list of the object at `a` (empty if not an object). -/
def heapFields (h : Heap) (a : Nat) : List (String × HVal) :=
  match h.get? a with
  | some (.fieldsOf fs) => fs
  | _ => []

/-- JS truthiness at the heap level (references are always truthy). -/
def hTruthy : HVal → Bool
  | .undefined => false
  | .null => false
  | .bool b => b
  | .num n => n != 0
  | .str s => s != ""
  | .ref _ => true

/-- The skip test of `merge` at the heap level; `value === []` is
reference inequality against a fresh literal, always false. -/
def hSkip : HVal → Bool
  | .undefined => true
  | .null => true
  | .str s => s == ""
  | _ => false

/-- `Array.isArray(value)`. -/
def isArrRef (h : Heap) : HVal → Bool
  | .ref a =>
      match h.get? a with
      | some (.arrOf _) => true
      | _ => false
  | _ => false

/-- Array spread at the heap level. -/
def hElems (h : Heap) : HVal → Except String (List HVal)
  | .ref a =>
      match h.get? a with
      | some (.arrOf es) => .ok es
      | _ => .error "TypeError: value is not iterable"
  | .str s => .ok (s.toList.map fun c => .str (String.singleton c))
  | _ => .error "TypeError: value is not iterable"

/-- `tag.includes('svelte')` at the heap level (tags are strings). -/
def hTagKeep : HVal → Except String Bool
  | .str s => .ok (!hasSub "svelte".toList s.toList)
  | _ => .error "TypeError: tag.includes is not a function"

/-- The tag filter at the heap level. -/
def hFilterTags : List HVal → Except String (List HVal)
  | [] => .ok []
  | v :: vs => do
      let keep ← hTagKeep v
      let rest ← hFilterTags vs
      pure (if keep then v :: rest else rest)

/-- One `forEach` iteration of `merge` at the heap level, writing only
into the fresh copy at `newA`; the tags branch allocates the filtered
concatenation as a new array rather than mutating either input array. -/
def mergeHStep (h : Heap) (newA : Nat) (k : String) (v : HVal) :
    Except String Heap :=
  if hSkip v then .ok h
  else if !((heapFields h newA).map Prod.fst).contains k then
    .ok (heapSetField h newA k v)
  else if k == "tags" && isArrRef h v then
    match (if hTruthy (getField (heapFields h newA) "tags")
        then hElems h (getField (heapFields h newA) "tags") else .ok []) with
    | .error e => .error e
    | .ok curElems =>
        match hElems h v with
        | .error e => .error e
        | .ok ves =>
            match hFilterTags (curElems ++ ves) with
            | .error e => .error e
            | .ok filtered =>
                .ok (heapSetField (h ++ [.arrOf filtered]) newA "tags"
                  (.ref h.length))
  else .ok h

/-- Sequential fold of `mergeHStep` over the snapshot of
`Object.entries(additional)`. -/
def mergeHFold (h : Heap) (newA : Nat) : List (String × HVal) → Except String Heap
  | [] => .ok h
  | (k, v) :: rest =>
      match mergeHStep h newA k v with
      | .error e => .error e
      | .ok h' => mergeHFold h' newA rest

/-- `merge(base, additional)` over the heap: `Object.assign({}, base)`
allocates a fresh shallow copy of the base object (field values,
including references, are shared), and all subsequent writes target that
copy.  Returns the new heap and the address of the merged object. -/
def mergeH (h : Heap) (baseA addA : Nat) : Except String (Heap × Nat) :=
  match h.get? baseA with
  | some (.fieldsOf bfs) =>
      match h.get? addA with
      | some (.fieldsOf afs) =>
          (mergeHFold (h ++ [.fieldsOf bfs]) h.length afs).map
            fun h2 => (h2, h.length)
      | _ => .error "TypeError: merge arguments must be objects"
  | _ => .error "TypeError: merge arguments must be objects"

/-- The identifiers the fetchers build raw cache keys from. -/
inductive Ident where
  | npmId (name : String)
  | ghId (owner repo : String)
  | glId (owner repo : String)
deriving DecidableEq

/-- The raw cache key a fetcher derives from an identifier, exactly the
template strings of `getNpmInfo`, `getGithubInfo`, `getGitlabInfo`. -/
def identRaw : Ident → String
  | .npmId n => npmRawKey n
  | .ghId o r => ghRawKey o r
  | .glId o r => glRawKey o r

/-- Characters of realistic npm package-name segments: npm names are
lowercase; letters, digits, hyphen, dot, underscore, tilde. -/
def plainc (c : Char) : Bool :=
  c.isLower || c.isDigit || c == '-' || c == '.' || c == '_' || c == '~'

/-- Realistic npm package names: a nonempty plain name, or a scoped name
`@scope/name` with nonempty plain scope and name parts. -/
def NpmOk (l : List Char) : Prop :=
  (l ≠ [] ∧ l.all plainc = true) ∨
  (∃ s p : List Char, l = '@' :: (s ++ '/' :: p) ∧ s ≠ [] ∧ p ≠ [] ∧
    s.all plainc = true ∧ p.all plainc = true)

/-- GitHub/GitLab owner names restricted to be hyphen-free (alphanumeric
only) — the restriction the amended injectivity claim needs. -/
def ownerOk (s : String) : Bool :=
  s ≠ "" && s.toList.all (fun c => c.isAlphanum)

/-- Realistic GitHub/GitLab repository names: alphanumeric plus
hyphen, dot, underscore. -/
def repoOk (s : String) : Bool :=
  s ≠ "" && s.toList.all (fun c => c.isAlphanum || c == '-' || c == '.' || c == '_')

/-- Realistic identifiers of the amended injectivity claim. -/
def IdentOk : Ident → Prop
  | .npmId n => NpmOk n.toList
  | .ghId o r => ownerOk o = true ∧ repoOk r = true
  | .glId o r => ownerOk o = true ∧ repoOk r = true

/-- Realistic GitHub/GitLab path segments as the platforms themselves
allow them (owners may contain hyphens): used by the collision
counterexample to exhibit two realistic distinct identifier pairs. -/
def hostSegOk (s : String) : Bool :=
  s ≠ "" && s.toList.all (fun c => c.isAlphanum || c == '-')

theorem lookupC_objSet_self : ∀ (c : List (String × JsValue)) (k : String) (v : JsValue),
    lookupC (objSet c k v) k = some v
  | [], k, v => by simp [objSet, lookupC]
  | (k', v') :: rest, k, v => by
      by_cases h : k' = k
      · subst h; simp [objSet, lookupC]
      · have hb : (k' == k) = false := by simp [h]
        simp only [objSet, hb, Bool.false_eq_true, if_false, lookupC, List.find?, hb]
        exact lookupC_objSet_self rest k v

/-- C3. Calling `getData` twice with the same key and a deterministic
producer, starting from a cache with no entry under the key and with no
expiry in between (the model's cache does not expire), returns the
producer's value both times — the second call returns a value equal to
the first call's — and invokes the producer exactly once over the two
calls. -/
theorem getData_idempotent (k : String) (p : JsValue) (st : St)
    (h : lookupC st.cache (normKey k) = none) :
    (getData true k p st).1 = p ∧
    (getData true k p ((getData true k p st).2)).1 = (getData true k p st).1 ∧
    (getData true k p ((getData true k p st).2)).2.prodCalls = st.prodCalls + 1 := by
  simp only [getData, h]
  simp [lookupC_objSet_self]

theorem getData_idempotent_witness :
    (getData true "npm-foo" (.str "1.0") ⟨[], 0, 0, 0⟩).1 = .str "1.0" ∧
    (getData true "npm-foo" (.str "1.0")
        ((getData true "npm-foo" (.str "1.0") ⟨[], 0, 0, 0⟩).2)).1
      = (getData true "npm-foo" (.str "1.0") ⟨[], 0, 0, 0⟩).1 ∧
    (getData true "npm-foo" (.str "1.0")
        ((getData true "npm-foo" (.str "1.0") ⟨[], 0, 0, 0⟩).2)).2.prodCalls
      = (⟨[], 0, 0, 0⟩ : St).prodCalls + 1 :=
  getData_idempotent "npm-foo" (.str "1.0") ⟨[], 0, 0, 0⟩ rfl

/-- C9. When the cache read misses and the cache write fails (`setOk =
false`; the `cache.set` promise is never awaited, so its rejection
cannot surface to the caller), `getData` still returns the
producer-computed value; the function's total, non-`Except` type records
that no fault is raised to its caller. -/
theorem getData_returns_value_on_set_failure (k : String) (p : JsValue) (st : St)
    (h : lookupC st.cache (normKey k) = none) :
    (getData false k p st).1 = p ∧ (getData false k p st).2.cache = st.cache := by
  simp [getData, h]

theorem getData_returns_value_on_set_failure_witness :
    (getData false "npm-foo" (.str "1.0") ⟨[], 0, 0, 0⟩).1 = .str "1.0" ∧
    (getData false "npm-foo" (.str "1.0") ⟨[], 0, 0, 0⟩).2.cache
      = (⟨[], 0, 0, 0⟩ : St).cache :=
  getData_returns_value_on_set_failure "npm-foo" (.str "1.0") ⟨[], 0, 0, 0⟩ rfl

/-- C8. An absent (`undefined`/`null`) URL, or a URL not matching the
respective fetcher's own guard — the GitHub guard (https/ssh/git
schemes) for `getGithubInfo`, the GitLab guard (https only) for
`getGitlabInfo` — makes that fetcher return its platform's empty
`InfoRecord` immediately with the effect state untouched: no cache read,
no cache write, no remote call.  The two URLs are hypothesized
independently per fetcher, so the statement covers the cross-platform
probe: `ug` may be a GitLab-form URL and `ul` a GitHub-form one. -/
theorem fetchers_short_circuit (remote : Remote) (st : St) (ug ul : String)
    (hg : isGhUrl ug = false) (hl : isGlUrl ul = false) :
    getGithubInfo remote .undefined st = (.ok (.obj ghEmpty), st) ∧
    getGithubInfo remote .null st = (.ok (.obj ghEmpty), st) ∧
    getGithubInfo remote (.str ug) st = (.ok (.obj ghEmpty), st) ∧
    getGitlabInfo remote .undefined st = (.ok (.obj glEmpty), st) ∧
    getGitlabInfo remote .null st = (.ok (.obj glEmpty), st) ∧
    getGitlabInfo remote (.str ul) st = (.ok (.obj glEmpty), st) := by
  refine ⟨rfl, rfl, ?_, rfl, rfl, ?_⟩ <;> simp [getGithubInfo, getGitlabInfo, hg, hl]

/-- The oracle in which every remote call fails. -/
def remoteNone : Remote := ⟨fun _ => none, fun _ _ => none, fun _ _ => none⟩

/-- The initial effect state: empty cache, zero counters. -/
def st0 : St := ⟨[], 0, 0, 0⟩

theorem fetchers_short_circuit_witness :
    getGithubInfo remoteNone .undefined st0 = (.ok (.obj ghEmpty), st0) ∧
    getGithubInfo remoteNone .null st0 = (.ok (.obj ghEmpty), st0) ∧
    getGithubInfo remoteNone (.str "https://gitlab.com/foo/bar") st0
      = (.ok (.obj ghEmpty), st0) ∧
    getGitlabInfo remoteNone .undefined st0 = (.ok (.obj glEmpty), st0) ∧
    getGitlabInfo remoteNone .null st0 = (.ok (.obj glEmpty), st0) ∧
    getGitlabInfo remoteNone (.str "https://github.com/foo/bar") st0
      = (.ok (.obj glEmpty), st0) :=
  fetchers_short_circuit remoteNone st0 "https://gitlab.com/foo/bar"
    "https://github.com/foo/bar" rfl rfl

/-- C1 (code bug). A URL passing a hosting fetcher's `startsWith` guard
but carrying only one path segment defeats the regex: `exec` returns
`null` and the unguarded `data[1]` throws a `TypeError` that escapes the
fetcher, so the fetchers do not return an absent-filled `InfoRecord` on
every input they cannot handle. -/
theorem getInfo_throws_on_single_segment_url (remote : Remote) (st : St) :
    getGithubInfo remote (.str "https://github.com/foo") st
      = (.error "TypeError: cannot read property 1 of null", st) ∧
    getGitlabInfo remote (.str "https://gitlab.com/foo") st
      = (.error "TypeError: cannot read property 1 of null", st) :=
  ⟨rfl, rfl⟩

/-- C5 (code bug). On a caught parse error whose message contains no
decimal digit — Node's `JSON.parse` raises exactly the message
`Unexpected end of JSON input` for a truncated or empty catalog — the
transform's catch handler itself throws (`/[\d]/.exec(err.message)` is
`null` and `[0]` faults), instead of warning and returning `null`. -/
theorem transformCatch_throws_without_digit :
    transformCatch "Unexpected end of JSON input" "src/pages/components/components.json"
      = .error "TypeError: cannot read property 0 of null" := rfl

theorem contains_iff (l : List String) (k : String) : l.contains k = true ↔ k ∈ l := by
  simp

theorem objGet_objSet_self : ∀ (o : Obj) (k : String) (v : JsValue),
    objGet (objSet o k v) k = v
  | [], k, v => by simp [objSet, objGet]
  | (k', v') :: rest, k, v => by
      by_cases h : k' = k
      · subst h; simp [objSet, objGet]
      · have hb : (k' == k) = false := by simp [h]
        simp only [objSet, hb, Bool.false_eq_true, if_false, objGet, List.find?, hb]
        exact objGet_objSet_self rest k v

theorem objGet_objSet_ne : ∀ (o : Obj) (k : String) (v : JsValue) (k' : String),
    k' ≠ k → objGet (objSet o k v) k' = objGet o k'
  | [], k, v, k', hne => by
      have hb : (k == k') = false := by simp [Ne.symm hne]
      simp [objSet, objGet, hb]
  | (k0, v0) :: rest, k, v, k', hne => by
      by_cases h : k0 = k
      · subst h
        simp only [objSet, beq_self_eq_true, if_true]
        have hb : (k0 == k') = false := by simp [Ne.symm hne]
        simp [objGet, List.find?, hb]
      · have hb : (k0 == k) = false := by simp [h]
        simp only [objSet, hb, Bool.false_eq_true, if_false]
        by_cases h2 : k0 = k'
        · subst h2; simp [objGet, List.find?]
        · have hb2 : (k0 == k') = false := by simp [h2]
          simp only [objGet, List.find?, hb2]
          exact objGet_objSet_ne rest k v k' hne

theorem mem_objKeys_objSet_of_mem : ∀ (o : Obj) (k : String) (v : JsValue) (k' : String),
    k' ∈ objKeys o → k' ∈ objKeys (objSet o k v)
  | [], _, _, _, hm => by simp [objKeys] at hm
  | (k0, v0) :: rest, k, v, k', hm => by
      by_cases h : k0 = k
      · subst h
        rcases (by simpa [objKeys] using hm : k' = k0 ∨ k' ∈ objKeys rest) with h1 | h1
        · subst h1; simp [objSet, objKeys]
        · simp [objSet, objKeys]
          right; simpa [objKeys] using h1
      · have hb : (k0 == k) = false := by simp [h]
        rcases (by simpa [objKeys] using hm : k' = k0 ∨ k' ∈ objKeys rest) with h1 | h1
        · subst h1; simp [objSet, hb, objKeys]
        · simp only [objSet, hb, Bool.false_eq_true, if_false]
          simp only [objKeys, List.map_cons, List.mem_cons]
          right
          simpa [objKeys] using mem_objKeys_objSet_of_mem rest k v k' h1

/-- Shape analysis of a successful tags branch: unchanged, or `tags`
reassigned to some array. -/
theorem mergeTags_cases (nd : Obj) (v : JsValue) (nd' : Obj)
    (h : mergeTags nd v = .ok nd') :
    nd' = nd ∨ ∃ l, nd' = objSet nd "tags" (.arr l) := by
  cases v with
  | arr velems =>
      have h0 : (match spreadArr (jsOr (objGet nd "tags") (.arr [])) with
          | Except.error e => Except.error e
          | Except.ok curElems =>
              match filterTags (curElems ++ velems) with
              | Except.error e => Except.error e
              | Except.ok filtered =>
                  Except.ok (objSet nd "tags" (JsValue.arr filtered)))
          = Except.ok nd' := h
      cases hsp : spreadArr (jsOr (objGet nd "tags") (.arr [])) with
      | error e =>
          rw [hsp] at h0
          exact Except.noConfusion
            (show (Except.error e : Except String Obj) = Except.ok nd' from h0)
      | ok ce =>
          rw [hsp] at h0
          have h1 : (match filterTags (ce ++ velems) with
              | Except.error e => Except.error e
              | Except.ok filtered =>
                  Except.ok (objSet nd "tags" (JsValue.arr filtered)))
              = Except.ok nd' := h0
          cases hft : filterTags (ce ++ velems) with
          | error e =>
              rw [hft] at h1
              exact Except.noConfusion
                (show (Except.error e : Except String Obj) = Except.ok nd' from h1)
          | ok fl =>
              rw [hft] at h1
              exact Or.inr ⟨fl, (Except.ok.inj h1).symm⟩
  | undefined => exact Or.inl (Except.ok.inj h).symm
  | null => exact Or.inl (Except.ok.inj h).symm
  | bool b => exact Or.inl (Except.ok.inj h).symm
  | num n => exact Or.inl (Except.ok.inj h).symm
  | str s => exact Or.inl (Except.ok.inj h).symm
  | obj fs => exact Or.inl (Except.ok.inj h).symm

/-- Shape analysis of one successful `merge` iteration: either the
object is unchanged, or a previously absent key is assigned, or the
present `tags` key is reassigned. -/
theorem mergeStep_cases (nd : Obj) (k : String) (v : JsValue) (nd' : Obj)
    (h : mergeStep nd k v = .ok nd') :
    nd' = nd ∨ (k ∉ objKeys nd ∧ nd' = objSet nd k v) ∨
      (k = "tags" ∧ ∃ l, nd' = objSet nd "tags" (.arr l)) := by
  unfold mergeStep at h
  by_cases hskip : skipVal v = true
  · rw [if_pos hskip] at h
    exact Or.inl (Except.ok.inj h).symm
  · rw [if_neg hskip] at h
    by_cases hc : (objKeys nd).contains k = true
    · have hcond : ¬((!(objKeys nd).contains k) = true) := by rw [hc]; simp
      rw [if_neg hcond] at h
      by_cases hk : k = "tags"
      · subst hk
        rw [if_pos (by simp)] at h
        rcases mergeTags_cases nd v nd' h with h1 | ⟨l, h1⟩
        · exact Or.inl h1
        · exact Or.inr (Or.inr ⟨rfl, l, h1⟩)
      · rw [if_neg (by simp [hk])] at h
        exact Or.inl (Except.ok.inj h).symm
    · have hcb : (objKeys nd).contains k = false := by
        cases hx : (objKeys nd).contains k
        · rfl
        · exact absurd hx hc
      have hcond : (!(objKeys nd).contains k) = true := by rw [hcb]; simp
      rw [if_pos hcond] at h
      refine Or.inr (Or.inl ⟨fun hm => hc ((contains_iff _ _).mpr hm),
        (Except.ok.inj h).symm⟩)

theorem mergeFold_preserves_existing :
    ∀ (l : List (String × JsValue)) (nd : Obj) (k : String), k ≠ "tags" →
      k ∈ objKeys nd → ∀ (m : Obj), mergeFold nd l = .ok m →
      objGet m k = objGet nd k ∧ k ∈ objKeys m
  | [], nd, k, _, hmem, m, h => by
      simp [mergeFold] at h; subst h; exact ⟨rfl, hmem⟩
  | (k', v') :: rest, nd, k, hk, hmem, m, h => by
      simp only [mergeFold] at h
      cases hstep : mergeStep nd k' v' with
      | error e => rw [hstep] at h; exact absurd h (by simp)
      | ok nd' =>
          rw [hstep] at h
          rcases mergeStep_cases nd k' v' nd' hstep with heq | ⟨hnm, heq⟩ | ⟨hkt, l, heq⟩
          · subst heq
            exact mergeFold_preserves_existing rest nd' k hk hmem m h
          · subst heq
            have hne : k ≠ k' := fun hx => hnm (hx ▸ hmem)
            have h1 := mergeFold_preserves_existing rest (objSet nd k' v') k hk
              (mem_objKeys_objSet_of_mem nd k' v' k hmem) m h
            exact ⟨h1.1.trans (objGet_objSet_ne nd k' v' k hne), h1.2⟩
          · subst heq
            have h1 := mergeFold_preserves_existing rest (objSet nd "tags" (.arr l)) k hk
              (mem_objKeys_objSet_of_mem nd "tags" (.arr l) k hmem) m h
            exact ⟨h1.1.trans (objGet_objSet_ne nd "tags" (.arr l) k hk), h1.2⟩

/-- C7. For every key other than `tags` that is already present in
`base`, `merge` keeps the base value regardless of the value in
`additional`: repeated keys are never overwritten (base wins). -/
theorem merge_base_wins (base additional : Obj) (k : String) (hk : k ≠ "tags")
    (hmem : k ∈ objKeys base) (m : Obj) (hm : merge base additional = .ok m) :
    objGet m k = objGet base k :=
  (mergeFold_preserves_existing additional base k hk hmem m hm).1

theorem merge_base_wins_witness :
    objGet [("title", JsValue.str "A"), ("stars", JsValue.num 5)] "title"
      = objGet [("title", JsValue.str "A")] "title" :=
  merge_base_wins [("title", .str "A")] [("title", .str "B"), ("stars", .num 5)]
    "title" (by decide) (by decide) _ rfl

/-- Whether a JS value is a string. -/
def isStrB : JsValue → Bool
  | .str _ => true
  | _ => false

/-- The tag filter predicate as a Boolean on values: keep exactly the
strings not containing the substring `svelte` (case-sensitive). -/
def tagKeptB : JsValue → Bool
  | .str s => !hasSub "svelte".toList s.toList
  | _ => false

theorem filterTags_of_strings : ∀ (l : List JsValue), l.all isStrB = true →
    filterTags l = .ok (l.filter tagKeptB)
  | [], _ => rfl
  | v :: vs, h => by
      rw [List.all_cons, Bool.and_eq_true] at h
      obtain ⟨hv, hvs⟩ := h
      cases v with
      | str s =>
          have ih := filterTags_of_strings vs hvs
          simp only [filterTags, tagKeep, ih, List.filter_cons]
          rfl
      | undefined => exact absurd hv (by simp [isStrB])
      | null => exact absurd hv (by simp [isStrB])
      | bool b => exact absurd hv (by simp [isStrB])
      | num n => exact absurd hv (by simp [isStrB])
      | arr es => exact absurd hv (by simp [isStrB])
      | obj fs => exact absurd hv (by simp [isStrB])

theorem mergeStep_ne_tags (nd : Obj) (k : String) (v : JsValue) (hk : k ≠ "tags") :
    ∃ nd', mergeStep nd k v = .ok nd' ∧ objGet nd' "tags" = objGet nd "tags" ∧
      ("tags" ∈ objKeys nd → "tags" ∈ objKeys nd') := by
  unfold mergeStep
  by_cases hskip : skipVal v = true
  · exact ⟨nd, by rw [if_pos hskip], rfl, id⟩
  · rw [if_neg hskip]
    by_cases hc : (objKeys nd).contains k = true
    · have hcond : ¬((!(objKeys nd).contains k) = true) := by rw [hc]; simp
      rw [if_neg hcond, if_neg (by simp [hk])]
      exact ⟨nd, rfl, rfl, id⟩
    · have hcb : (objKeys nd).contains k = false := by
        cases hx : (objKeys nd).contains k
        · rfl
        · exact absurd hx hc
      rw [if_pos (by rw [hcb]; simp)]
      exact ⟨objSet nd k v, rfl, objGet_objSet_ne nd k v "tags" (Ne.symm hk),
        fun hm => mem_objKeys_objSet_of_mem nd k v "tags" hm⟩

theorem mergeFold_no_tags : ∀ (l : List (String × JsValue)) (nd : Obj),
    "tags" ∉ l.map Prod.fst →
    ∃ m, mergeFold nd l = .ok m ∧ objGet m "tags" = objGet nd "tags" ∧
      ("tags" ∈ objKeys nd → "tags" ∈ objKeys m)
  | [], nd, _ => ⟨nd, rfl, rfl, id⟩
  | (k, v) :: rest, nd, h => by
      have hk : k ≠ "tags" := fun he => h (by simp [he])
      obtain ⟨nd', hstep, hget, hmem⟩ := mergeStep_ne_tags nd k v hk
      have hrest : "tags" ∉ rest.map Prod.fst := fun hm => h (by simp [hm])
      obtain ⟨m, hfold, hget2, hmem2⟩ := mergeFold_no_tags rest nd' hrest
      refine ⟨m, ?_, hget2.trans hget, fun hm => hmem2 (hmem hm)⟩
      simp only [mergeFold, hstep]
      exact hfold

theorem mergeStep_tags_arr (nd : Obj) (bt velems : List JsValue)
    (hget : objGet nd "tags" = .arr bt) (hmem : "tags" ∈ objKeys nd)
    (hbt : bt.all isStrB = true) (hv : velems.all isStrB = true) :
    mergeStep nd "tags" (.arr velems)
      = .ok (objSet nd "tags" (.arr ((bt ++ velems).filter tagKeptB))) := by
  unfold mergeStep
  rw [if_neg (fun hh => Bool.noConfusion hh :
    ¬(skipVal (JsValue.arr velems) = true))]
  have hc : (objKeys nd).contains "tags" = true := (contains_iff _ _).mpr hmem
  rw [if_neg (by rw [hc]; simp), if_pos (by simp)]
  have h0 : mergeTags nd (.arr velems)
      = (match spreadArr (jsOr (objGet nd "tags") (.arr [])) with
        | Except.error e => Except.error e
        | Except.ok curElems =>
            match filterTags (curElems ++ velems) with
            | Except.error e => Except.error e
            | Except.ok filtered =>
                Except.ok (objSet nd "tags" (JsValue.arr filtered))) := rfl
  rw [h0, hget]
  show (match filterTags (bt ++ velems) with
    | Except.error e => Except.error e
    | Except.ok filtered =>
        Except.ok (objSet nd "tags" (JsValue.arr filtered))) = _
  rw [filterTags_of_strings (bt ++ velems)
    (by rw [List.all_append, hbt, hv]; rfl)]

theorem mergeFold_append : ∀ (a b : List (String × JsValue)) (nd : Obj),
    mergeFold nd (a ++ b) = match mergeFold nd a with
      | .error e => .error e
      | .ok nd' => mergeFold nd' b
  | [], _, _ => rfl
  | (k, v) :: rest, b, nd => by
      simp only [List.cons_append, mergeFold]
      cases hstep : mergeStep nd k v with
      | error e => rfl
      | ok nd' => exact mergeFold_append rest b nd'

/-- C6. When `base` holds a tags array and `additional` holds a tags
array (its entry list carrying `tags` exactly once, as JS object keys
are unique), `merge` succeeds and the merged record's tags are the base
tags followed by the additional tags, with every tag containing the
case-sensitive substring `svelte` removed and the remaining order
preserved. -/
theorem merge_tags_concat_filter (base : Obj) (pre post : List (String × JsValue))
    (bt velems : List JsValue)
    (hb : objGet base "tags" = .arr bt) (hbmem : "tags" ∈ objKeys base)
    (hpre : "tags" ∉ pre.map Prod.fst) (hpost : "tags" ∉ post.map Prod.fst)
    (hbt : bt.all isStrB = true) (hv : velems.all isStrB = true) :
    ∃ m, merge base (pre ++ ("tags", .arr velems) :: post) = .ok m ∧
      objGet m "tags" = .arr ((bt ++ velems).filter tagKeptB) := by
  obtain ⟨nd1, h1, hget1, hmem1⟩ := mergeFold_no_tags pre base hpre
  have hg1 : objGet nd1 "tags" = .arr bt := hget1.trans hb
  have hm1 : "tags" ∈ objKeys nd1 := hmem1 hbmem
  have hstep := mergeStep_tags_arr nd1 bt velems hg1 hm1 hbt hv
  obtain ⟨m, h3, hget3, _⟩ :=
    mergeFold_no_tags post (objSet nd1 "tags"
      (.arr ((bt ++ velems).filter tagKeptB))) hpost
  refine ⟨m, ?_, hget3.trans (objGet_objSet_self nd1 "tags" _)⟩
  unfold merge
  rw [mergeFold_append, h1]
  show mergeFold nd1 (("tags", JsValue.arr velems) :: post) = Except.ok m
  simp only [mergeFold, hstep]
  exact h3

theorem merge_tags_concat_filter_witness :
    ∃ m, merge [("tags", .arr [.str "ui", .str "svelte-icons"])]
        ([] ++ ("tags", JsValue.arr [.str "framework", .str "svelte"]) :: [])
        = .ok m ∧
      objGet m "tags" = .arr (([JsValue.str "ui", JsValue.str "svelte-icons"]
        ++ [JsValue.str "framework", JsValue.str "svelte"]).filter tagKeptB) :=
  merge_tags_concat_filter [("tags", .arr [.str "ui", .str "svelte-icons"])]
    [] [] [.str "ui", .str "svelte-icons"] [.str "framework", .str "svelte"]
    rfl (by decide) (by decide) (by decide) rfl rfl

/-- Whether a JS value is an object (an enrichable record shape). -/
def isObjB : JsValue → Bool
  | .obj _ => true
  | _ => false

theorem runBatch_length (remote : Remote) : ∀ (items : List Obj) (st : St),
    (runBatch remote items st).1.length = items.length
  | [], _ => rfl
  | it :: rest, st => by
      show (settleVal (updateItem remote it st).1
        :: (runBatch remote rest (updateItem remote it st).2).1).length
        = rest.length + 1
      simp [runBatch_length remote rest]

theorem runBatch_get (remote : Remote) : ∀ (items : List Obj) (st : St)
    (j : Nat) (it : Obj), items.get? j = some it →
    (runBatch remote items st).1.get? j
      = some (settleVal (updateItem remote it (stBefore remote st items j)).1)
  | [], _, j, _, h => by simp at h
  | it0 :: rest, st, 0, it, h => by
      obtain rfl : it0 = it := by simpa using h
      rfl
  | it0 :: rest, st, j + 1, it, h => by
      have h' : rest.get? j = some it := by simpa using h
      have ih := runBatch_get remote rest (updateItem remote it0 st).2 j it h'
      show (settleVal (updateItem remote it0 st).1
        :: (runBatch remote rest (updateItem remote it0 st).2).1).get? (j + 1)
        = some (settleVal (updateItem remote it
            (stBefore remote st (it0 :: rest) (j + 1))).1)
      rw [List.get?_cons_succ]
      exact ih

theorem runBatch_append (remote : Remote) : ∀ (a b : List Obj) (st : St),
    runBatch remote (a ++ b) st
      = ((runBatch remote a st).1 ++ (runBatch remote b (runBatch remote a st).2).1,
         (runBatch remote b (runBatch remote a st).2).2)
  | [], b, st => rfl
  | a0 :: arest, b, st => by
      show (settleVal (updateItem remote a0 st).1
          :: (runBatch remote (arest ++ b) (updateItem remote a0 st).2).1,
        (runBatch remote (arest ++ b) (updateItem remote a0 st).2).2) = _
      rw [runBatch_append remote arest b (updateItem remote a0 st).2]
      rfl

/-- The chunked loop with its in-place splices computes the same output
as settling every item task in order: each splice only rewrites its own
slice and preserves length. -/
theorem enrichAll_eq_runBatch (remote : Remote) : ∀ (n : Nat) (items : List Obj),
    items.length ≤ n → ∀ (st : St),
    enrichAll remote st items = runBatch remote items st := by
  intro n
  induction n with
  | zero =>
      intro items h st
      have : items = [] := List.eq_nil_of_length_eq_zero (Nat.le_zero.mp h)
      subst this
      rw [enrichAll]
      rfl
  | succ n ih =>
      intro items h st
      cases items with
      | nil => rw [enrichAll]; rfl
      | cons it rest =>
          rw [enrichAll]
          show ((runBatch remote ((it :: rest).take 10) st).1
              ++ (enrichAll remote (runBatch remote ((it :: rest).take 10) st).2
                  ((it :: rest).drop 10)).1,
            (enrichAll remote (runBatch remote ((it :: rest).take 10) st).2
                ((it :: rest).drop 10)).2)
            = runBatch remote (it :: rest) st
          have hlen : ((it :: rest).drop 10).length ≤ n := by
            simp only [List.length_drop, List.length_cons]
            simp only [List.length_cons] at h
            omega
          rw [ih _ hlen]
          have happ := runBatch_append remote ((it :: rest).take 10)
            ((it :: rest).drop 10) st
          rw [List.take_append_drop] at happ
          exact happ.symm

/-- C2 (amended). Every batch spliced back has exactly as many slots as
it had items, each output position holds the settled value of that same
position's task — the enriched record on success, and the absent value
`undefined` (a rejected task has no `value` property under
`Promise.allSettled`) on failure — and the loop keeps processing every
subsequent item and batch regardless of failures. -/
theorem enrichAll_shape (remote : Remote) (st : St) (items : List Obj) :
    (enrichAll remote st items).1.length = items.length ∧
    ∀ (j : Nat) (it : Obj), items.get? j = some it →
      (enrichAll remote st items).1.get? j
        = some (settleVal (updateItem remote it (stBefore remote st items j)).1) := by
  rw [enrichAll_eq_runBatch remote items.length items (Nat.le_refl _) st]
  exact ⟨runBatch_length remote items st,
    fun j it h => runBatch_get remote items st j it h⟩

/-- An ordinary catalog item whose enrichment succeeds. -/
def plainItem : Obj := [("title", .str "x")]

/-- A catalog item whose `repo` URL passes the GitHub prefix guard with
a single path segment, so its enrichment task throws (see C1). -/
def badItem : Obj := [("repo", .str "https://github.com/foo")]

/-- A batch of 10 items in which the fourth item's task fails. -/
def cexItems : List Obj :=
  [plainItem, plainItem, plainItem, badItem, plainItem,
   plainItem, plainItem, plainItem, plainItem, plainItem]

theorem enrichAll_shape_witness :
    (enrichAll remoteNone st0 cexItems).1.length = cexItems.length ∧
    (enrichAll remoteNone st0 cexItems).1.get? 3
      = some (settleVal (updateItem remoteNone badItem
          (stBefore remoteNone st0 cexItems 3)).1) :=
  ⟨(enrichAll_shape remoteNone st0 cexItems).1,
   (enrichAll_shape remoteNone st0 cexItems).2 3 badItem rfl⟩

/-- C2 counterexample. In a batch of 10 items where the fourth item's
task fails, the spliced-back batch holds `undefined` at that position:
the failed item is neither unchanged (`badItem` is an object and
`undefined` is not) nor an enriched record with absent-filled fields. -/
theorem batch_failed_item_becomes_undefined :
    (enrichAll remoteNone st0 cexItems).1.get? 3 = some JsValue.undefined ∧
    cexItems.get? 3 = some badItem ∧
    isObjB JsValue.undefined = false ∧
    isObjB (JsValue.obj badItem) = true := by
  refine ⟨?_, rfl, rfl, rfl⟩
  rw [enrichAll_eq_runBatch remoteNone cexItems.length cexItems (Nat.le_refl _) st0]
  rfl

theorem length_heapSetField (h : Heap) (a : Nat) (k : String) (v : HVal) :
    (heapSetField h a k v).length = h.length := by
  unfold heapSetField
  cases hx : h.get? a with
  | none => rfl
  | some o =>
      cases o with
      | fieldsOf fs =>
          show (h.set a (HObj.fieldsOf (setField fs k v))).length = h.length
          exact List.length_set h a _
      | arrOf es => rfl

theorem get?_heapSetField_ne (h : Heap) (a : Nat) (k : String) (v : HVal)
    (i : Nat) (hia : i ≠ a) : (heapSetField h a k v).get? i = h.get? i := by
  unfold heapSetField
  cases hx : h.get? a with
  | none => rfl
  | some o =>
      cases o with
      | fieldsOf fs =>
          show (h.set a (HObj.fieldsOf (setField fs k v))).get? i = h.get? i
          exact List.get?_set_ne _ h (Ne.symm hia)
      | arrOf es => rfl

theorem mergeHStep_frame (h0len : Nat) (h : Heap) (newA : Nat) (k : String)
    (v : HVal) (h' : Heap) (hstep : mergeHStep h newA k v = .ok h')
    (hge : h0len ≤ newA) (hlen : h0len ≤ h.length) :
    h0len ≤ h'.length ∧ ∀ i, i < h0len → h'.get? i = h.get? i := by
  have hset : ∀ (hh : Heap) (kk : String) (vv : HVal), h0len ≤ hh.length →
      (∀ i, i < h0len → hh.get? i = h.get? i) →
      h0len ≤ (heapSetField hh newA kk vv).length ∧
      ∀ i, i < h0len → (heapSetField hh newA kk vv).get? i = h.get? i := by
    intro hh kk vv hhlen hhpres
    refine ⟨by rw [length_heapSetField]; exact hhlen, fun i hi => ?_⟩
    rw [get?_heapSetField_ne hh newA kk vv i
      (Nat.ne_of_lt (Nat.lt_of_lt_of_le hi hge))]
    exact hhpres i hi
  unfold mergeHStep at hstep
  by_cases hskip : hSkip v = true
  · rw [if_pos hskip] at hstep
    obtain rfl := Except.ok.inj hstep
    exact ⟨hlen, fun _ _ => rfl⟩
  · rw [if_neg hskip] at hstep
    by_cases hc : (!((heapFields h newA).map Prod.fst).contains k) = true
    · rw [if_pos hc] at hstep
      obtain rfl := Except.ok.inj hstep
      exact hset h k v hlen (fun _ _ => rfl)
    · rw [if_neg hc] at hstep
      by_cases hk : (k == "tags" && isArrRef h v) = true
      · rw [if_pos hk] at hstep
        cases hcur : (if hTruthy (getField (heapFields h newA) "tags")
            then hElems h (getField (heapFields h newA) "tags")
            else .ok ([] : List HVal)) with
        | error e =>
            rw [hcur] at hstep
            exact Except.noConfusion
              (show (Except.error e : Except String Heap) = Except.ok h' from hstep)
        | ok ce =>
            rw [hcur] at hstep
            have hstep1 : (match hElems h v with
                | Except.error e => (Except.error e : Except String Heap)
                | Except.ok ves =>
                    match hFilterTags (ce ++ ves) with
                    | Except.error e => Except.error e
                    | Except.ok filtered =>
                        Except.ok (heapSetField (h ++ [HObj.arrOf filtered])
                          newA "tags" (HVal.ref h.length)))
                = Except.ok h' := hstep
            cases hv2 : hElems h v with
            | error e =>
                rw [hv2] at hstep1
                exact Except.noConfusion (show (Except.error e : Except String Heap)
                  = Except.ok h' from hstep1)
            | ok ves =>
                rw [hv2] at hstep1
                have hstep2 : (match hFilterTags (ce ++ ves) with
                    | Except.error e => (Except.error e : Except String Heap)
                    | Except.ok filtered =>
                        Except.ok (heapSetField (h ++ [HObj.arrOf filtered])
                          newA "tags" (HVal.ref h.length)))
                    = Except.ok h' := hstep1
                cases hft : hFilterTags (ce ++ ves) with
                | error e =>
                    rw [hft] at hstep2
                    exact Except.noConfusion
                      (show (Except.error e : Except String Heap)
                        = Except.ok h' from hstep2)
                | ok fl =>
                    rw [hft] at hstep2
                    obtain rfl := Except.ok.inj hstep2
                    refine hset (h ++ [.arrOf fl]) "tags" (.ref h.length) ?_ ?_
                    · rw [List.length_append]
                      exact Nat.le_trans hlen (Nat.le_add_right _ _)
                    · intro i hi
                      exact List.get?_append (Nat.lt_of_lt_of_le hi hlen)
      · rw [if_neg hk] at hstep
        obtain rfl := Except.ok.inj hstep
        exact ⟨hlen, fun _ _ => rfl⟩

theorem mergeHFold_frame (h0len : Nat) : ∀ (l : List (String × HVal)) (h : Heap)
    (newA : Nat) (h' : Heap), mergeHFold h newA l = .ok h' → h0len ≤ newA →
    h0len ≤ h.length →
    h0len ≤ h'.length ∧ ∀ i, i < h0len → h'.get? i = h.get? i
  | [], h, newA, h', hf, _, hlen => by
      obtain rfl := Except.ok.inj hf
      exact ⟨hlen, fun _ _ => rfl⟩
  | (k, v) :: rest, h, newA, h', hf, hge, hlen => by
      simp only [mergeHFold] at hf
      cases hstep : mergeHStep h newA k v with
      | error e => rw [hstep] at hf; exact Except.noConfusion hf
      | ok h1 =>
          rw [hstep] at hf
          obtain ⟨hlen1, hpres1⟩ :=
            mergeHStep_frame h0len h newA k v h1 hstep hge hlen
          obtain ⟨hlen2, hpres2⟩ :=
            mergeHFold_frame h0len rest h1 newA h' hf hge hlen1
          exact ⟨hlen2, fun i hi => (hpres2 i hi).trans (hpres1 i hi)⟩

/-- C10. `merge` mutates neither its base nor its additional argument:
it writes only into the freshly allocated `Object.assign({}, base)` copy
and allocates the combined tags as a fresh array, so every
pre-existing heap address — in particular the two argument objects and
every array they reference — holds exactly the same object after the
call. -/
theorem mergeH_frame (h : Heap) (bA aA : Nat) (h' : Heap) (r : Nat)
    (hm : mergeH h bA aA = .ok (h', r)) :
    ∀ i, i < h.length → h'.get? i = h.get? i := by
  unfold mergeH at hm
  cases hb : h.get? bA with
  | none => rw [hb] at hm; exact Except.noConfusion hm
  | some ob =>
      rw [hb] at hm
      cases ob with
      | arrOf es => exact Except.noConfusion hm
      | fieldsOf bfs =>
          cases ha : h.get? aA with
          | none => rw [ha] at hm; exact Except.noConfusion hm
          | some oa =>
              rw [ha] at hm
              cases oa with
              | arrOf es => exact Except.noConfusion hm
              | fieldsOf afs =>
                  have hm1 : Except.map (fun h2 => (h2, h.length))
                      (mergeHFold (h ++ [.fieldsOf bfs]) h.length afs)
                      = Except.ok (h', r) := hm
                  cases hf : mergeHFold (h ++ [.fieldsOf bfs]) h.length afs with
                  | error e =>
                      rw [hf] at hm1
                      exact Except.noConfusion
                        (show (Except.error e : Except String (Heap × Nat))
                          = Except.ok (h', r) from hm1)
                  | ok h2 =>
                      rw [hf] at hm1
                      have hm2 : (h2, h.length) = (h', r) := Except.ok.inj hm1
                      injection hm2 with e1 e2
                      subst e1
                      obtain ⟨_, hpres⟩ := mergeHFold_frame h.length afs
                        (h ++ [.fieldsOf bfs]) h.length h2 hf (Nat.le_refl _)
                        (by rw [List.length_append]; exact Nat.le_add_right _ _)
                      intro i hi
                      exact (hpres i hi).trans (List.get?_append hi)

/-- A concrete two-object heap for the frame witness. -/
def h0cex : Heap :=
  [.fieldsOf [("title", .str "A")], .fieldsOf [("title", .str "B")]]

/-- The heap after merging the two objects of `h0cex`: the shallow copy
is appended, nothing else changes. -/
def h0cexRes : Heap := h0cex ++ [.fieldsOf [("title", .str "A")]]

theorem mergeH_frame_witness :
    mergeH h0cex 0 1 = .ok (h0cexRes, 2) ∧
    h0cexRes.get? 0 = h0cex.get? 0 ∧ h0cexRes.get? 1 = h0cex.get? 1 :=
  ⟨rfl, mergeH_frame h0cex 0 1 h0cexRes 2 rfl 0 (by decide),
    mergeH_frame h0cex 0 1 h0cexRes 2 rfl 1 (by decide)⟩

theorem all_not_mem {p : Char → Bool} {l : List Char} (h : l.all p = true)
    {c : Char} (hc : p c = false) : c ∉ l := fun hm => by
  have h2 := List.all_eq_true.mp h c hm
  rw [hc] at h2
  exact Bool.noConfusion h2

theorem not_mem_append2 {c : Char} {a b : List Char} (ha : c ∉ a) (hb : c ∉ b) :
    c ∉ a ++ b := fun hm => (List.mem_append.mp hm).elim ha hb

theorem replFirst_of_not_mem (c : Char) (rep : List Char) :
    ∀ l, c ∉ l → replFirst c rep l = l
  | [], _ => rfl
  | x :: xs, h => by
      have hx : ¬(x == c) = true := by
        simp only [beq_iff_eq]
        exact fun he => h (he ▸ List.mem_cons_self x xs)
      simp only [replFirst, if_neg hx]
      rw [replFirst_of_not_mem c rep xs (fun hm => h (List.mem_cons_of_mem x hm))]

theorem replFirst_split (c : Char) (rep : List Char) :
    ∀ (a b : List Char), c ∉ a → replFirst c rep (a ++ c :: b) = a ++ rep ++ b
  | [], b, _ => by simp [replFirst]
  | x :: xs, b, h => by
      have hx : ¬(x == c) = true := by
        simp only [beq_iff_eq]
        exact fun he => h (he ▸ List.mem_cons_self x xs)
      simp only [List.cons_append, replFirst, if_neg hx, List.append_eq]
      rw [replFirst_split c rep xs b (fun hm => h (List.mem_cons_of_mem x hm))]

theorem normKeyL_id (l : List Char) (h1 : '@' ∉ l) (h2 : '/' ∉ l) :
    normKeyL l = l := by
  unfold normKeyL
  rw [replFirst_of_not_mem _ _ l h1, replFirst_of_not_mem _ _ l h2]

theorem toList_append (s t : String) : (s ++ t).toList = s.toList ++ t.toList :=
  String.data_append s t

theorem npmRaw_toList (n : String) :
    (npmRawKey n).toList = "npm-".toList ++ n.toList := toList_append _ _

theorem ghRaw_toList (o r : String) :
    (ghRawKey o r).toList = "github-".toList ++ (o.toList ++ '-' :: r.toList) := by
  show ((("github-" ++ o) ++ "-") ++ r).toList = _
  rw [toList_append, toList_append, toList_append]
  simp [List.append_assoc]

theorem glRaw_toList (o r : String) :
    (glRawKey o r).toList = "gitlab-".toList ++ (o.toList ++ '-' :: r.toList) := by
  show ((("gitlab-" ++ o) ++ "-") ++ r).toList = _
  rw [toList_append, toList_append, toList_append]
  simp [List.append_assoc]

theorem normKeyL_scoped (s p : List Char) (hs : s.all plainc = true)
    (hp : p.all plainc = true) :
    normKeyL ("npm-".toList ++ ('@' :: (s ++ '/' :: p)))
      = "npm-".toList ++ "--AT--".toList ++ s ++ "--SLASH--".toList ++ p := by
  unfold normKeyL
  rw [replFirst_split '@' "--AT--".toList "npm-".toList (s ++ '/' :: p) (by decide)]
  have e1 : ("npm-".toList ++ "--AT--".toList) ++ (s ++ '/' :: p)
      = (("npm-".toList ++ "--AT--".toList) ++ s) ++ '/' :: p :=
    (List.append_assoc _ _ _).symm
  rw [e1, replFirst_split '/' "--SLASH--".toList _ p
    (not_mem_append2 (not_mem_append2 (by decide) (by decide))
      (all_not_mem hs (by decide)))]

/-- Splitting at the first occurrence of a separator character is
injective. -/
theorem sep_inj (c : Char) : ∀ (a1 b1 a2 b2 : List Char), c ∉ a1 → c ∉ a2 →
    a1 ++ c :: b1 = a2 ++ c :: b2 → a1 = a2 ∧ b1 = b2
  | [], b1, a2, b2, _, h2, h => by
      cases a2 with
      | nil => simpa using h
      | cons y ys =>
          simp only [List.nil_append, List.cons_append, List.cons.injEq] at h
          exact absurd (h.1 ▸ List.mem_cons_self y ys) h2
  | x :: xs, b1, a2, b2, h1, h2, h => by
      cases a2 with
      | nil =>
          simp only [List.nil_append, List.cons_append, List.cons.injEq] at h
          exact absurd (h.1.symm ▸ List.mem_cons_self x xs) h1
      | cons y ys =>
          simp only [List.cons_append, List.cons.injEq] at h
          obtain ⟨hxy, htail⟩ := h
          obtain ⟨ha, hb⟩ := sep_inj c xs b1 ys b2
            (fun hm => h1 (List.mem_cons_of_mem x hm))
            (fun hm => h2 (List.mem_cons_of_mem y hm)) htail
          exact ⟨by rw [hxy, ha], hb⟩

theorem scoped_tail_inj (s1 p1 s2 p2 : List Char)
    (hs1 : s1.all plainc = true) (hs2 : s2.all plainc = true)
    (heq : s1 ++ ("--SLASH--".toList ++ p1) = s2 ++ ("--SLASH--".toList ++ p2)) :
    s1 = s2 ∧ p1 = p2 := by
  have expose : ∀ s p : List Char, s ++ ("--SLASH--".toList ++ p)
      = (s ++ ['-', '-']) ++ 'S' :: ("LASH--".toList ++ p) := by
    intro s p
    rw [List.append_assoc]
    rfl
  rw [expose s1 p1, expose s2 p2] at heq
  have hnm1 : 'S' ∉ s1 ++ ['-', '-'] :=
    not_mem_append2 (all_not_mem hs1 (by decide)) (by decide)
  have hnm2 : 'S' ∉ s2 ++ ['-', '-'] :=
    not_mem_append2 (all_not_mem hs2 (by decide)) (by decide)
  obtain ⟨ha, hb⟩ := sep_inj 'S' _ _ _ _ hnm1 hnm2 heq
  exact ⟨List.append_cancel_right ha, List.append_cancel_left hb⟩

/-- Two appended lists that disagree at a position inside both left
parts cannot be equal. -/
theorem head_clash (a b x y : List Char) (j : Nat) (hja : j < a.length)
    (hjb : j < b.length) (hne : a.get? j ≠ b.get? j) (heq : a ++ x = b ++ y) :
    False := by
  have h2 := congrArg (fun l => List.get? l j) heq
  simp only at h2
  rw [List.get?_append hja, List.get?_append hjb] at h2
  exact hne h2

theorem not_mem_cons2 {c x : Char} {l : List Char} (hx : c ≠ x) (hl : c ∉ l) :
    c ∉ x :: l := fun hm => (List.mem_cons.mp hm).elim hx hl

theorem ownerOk_chars {o : String} (h : ownerOk o = true) :
    o.toList.all (fun c => c.isAlphanum) = true := by
  simp only [ownerOk, Bool.and_eq_true] at h
  exact h.2

theorem repoOk_chars {r : String} (h : repoOk r = true) :
    r.toList.all (fun c => c.isAlphanum || c == '-' || c == '.' || c == '_')
      = true := by
  simp only [repoOk, Bool.and_eq_true] at h
  exact h.2

theorem normKeyL_gh (o r : String) (ho : ownerOk o = true) (hr : repoOk r = true) :
    normKeyL ((ghRawKey o r).toList)
      = "github-".toList ++ (o.toList ++ '-' :: r.toList) := by
  rw [ghRaw_toList]
  refine normKeyL_id _ ?_ ?_
  · exact not_mem_append2 (by decide)
      (not_mem_append2 (all_not_mem (ownerOk_chars ho) (by decide))
        (not_mem_cons2 (by decide) (all_not_mem (repoOk_chars hr) (by decide))))
  · exact not_mem_append2 (by decide)
      (not_mem_append2 (all_not_mem (ownerOk_chars ho) (by decide))
        (not_mem_cons2 (by decide) (all_not_mem (repoOk_chars hr) (by decide))))

theorem normKeyL_gl (o r : String) (ho : ownerOk o = true) (hr : repoOk r = true) :
    normKeyL ((glRawKey o r).toList)
      = "gitlab-".toList ++ (o.toList ++ '-' :: r.toList) := by
  rw [glRaw_toList]
  refine normKeyL_id _ ?_ ?_
  · exact not_mem_append2 (by decide)
      (not_mem_append2 (all_not_mem (ownerOk_chars ho) (by decide))
        (not_mem_cons2 (by decide) (all_not_mem (repoOk_chars hr) (by decide))))
  · exact not_mem_append2 (by decide)
      (not_mem_append2 (all_not_mem (ownerOk_chars ho) (by decide))
        (not_mem_cons2 (by decide) (all_not_mem (repoOk_chars hr) (by decide))))

theorem normKeyL_npm_shape (n : String) (h : NpmOk n.toList) :
    ∃ X, normKeyL ((npmRawKey n).toList) = "npm-".toList ++ X := by
  rcases h with ⟨hne, hall⟩ | ⟨s, p, hdec, hsne, hpne, hs, hp⟩
  · refine ⟨n.toList, ?_⟩
    rw [npmRaw_toList]
    exact normKeyL_id _
      (not_mem_append2 (by decide) (all_not_mem hall (by decide)))
      (not_mem_append2 (by decide) (all_not_mem hall (by decide)))
  · refine ⟨"--AT--".toList ++ (s ++ ("--SLASH--".toList ++ p)), ?_⟩
    rw [npmRaw_toList, hdec, normKeyL_scoped s p hs hp]
    simp [List.append_assoc]

/-- C4 (amended). The composite map from realistic identifiers to
normalized cache keys — package name or (platform, owner, repo) to raw
template key to `normKey` — is injective once hosting owner names are
hyphen-free; the counterexample `("a","b-c")` versus `("a-b","c")` shows
hyphenated owners break it. -/
theorem normKey_injective_hyphenfree (i1 i2 : Ident) (h1 : IdentOk i1)
    (h2 : IdentOk i2) (hne : i1 ≠ i2) :
    normKey (identRaw i1) ≠ normKey (identRaw i2) := by
  intro heq
  have hl : normKeyL (identRaw i1).toList = normKeyL (identRaw i2).toList :=
    congrArg String.data heq
  cases i1 with
  | npmId n1 =>
      cases i2 with
      | npmId n2 =>
          have h1' : NpmOk n1.toList := h1
          have h2' : NpmOk n2.toList := h2
          simp only [identRaw] at hl
          rcases h1' with ⟨hne1, hall1⟩ | ⟨s1, p1, hdec1, hs1ne, hp1ne, hs1, hp1⟩ <;>
            rcases h2' with ⟨hne2, hall2⟩ | ⟨s2, p2, hdec2, hs2ne, hp2ne, hs2, hp2⟩
          · rw [npmRaw_toList n1, npmRaw_toList n2,
              normKeyL_id _
                (not_mem_append2 (by decide) (all_not_mem hall1 (by decide)))
                (not_mem_append2 (by decide) (all_not_mem hall1 (by decide))),
              normKeyL_id _
                (not_mem_append2 (by decide) (all_not_mem hall2 (by decide)))
                (not_mem_append2 (by decide) (all_not_mem hall2 (by decide)))] at hl
            have e := String.ext (List.append_cancel_left hl)
            exact hne (by rw [e])
          · rw [npmRaw_toList n1, npmRaw_toList n2, hdec2,
              normKeyL_id _
                (not_mem_append2 (by decide) (all_not_mem hall1 (by decide)))
                (not_mem_append2 (by decide) (all_not_mem hall1 (by decide))),
              normKeyL_scoped s2 p2 hs2 hp2] at hl
            have hA : ('A' : Char) ∈ "npm-".toList ++ "--AT--".toList ++ s2
                ++ "--SLASH--".toList ++ p2 := by
              simp only [List.mem_append]
              exact Or.inl (Or.inl (Or.inl (Or.inr (by decide))))
            rw [← hl] at hA
            rcases List.mem_append.mp hA with hm | hm
            · exact absurd hm (by decide)
            · exact all_not_mem hall1 (by decide) hm
          · rw [npmRaw_toList n1, npmRaw_toList n2, hdec1,
              normKeyL_scoped s1 p1 hs1 hp1,
              normKeyL_id _
                (not_mem_append2 (by decide) (all_not_mem hall2 (by decide)))
                (not_mem_append2 (by decide) (all_not_mem hall2 (by decide)))] at hl
            have hA : ('A' : Char) ∈ "npm-".toList ++ "--AT--".toList ++ s1
                ++ "--SLASH--".toList ++ p1 := by
              simp only [List.mem_append]
              exact Or.inl (Or.inl (Or.inl (Or.inr (by decide))))
            rw [hl] at hA
            rcases List.mem_append.mp hA with hm | hm
            · exact absurd hm (by decide)
            · exact all_not_mem hall2 (by decide) hm
          · rw [npmRaw_toList n1, npmRaw_toList n2, hdec1, hdec2,
              normKeyL_scoped s1 p1 hs1 hp1,
              normKeyL_scoped s2 p2 hs2 hp2] at hl
            simp only [List.append_assoc] at hl
            have h4 := List.append_cancel_left (List.append_cancel_left hl)
            obtain ⟨hs, hp⟩ := scoped_tail_inj s1 p1 s2 p2 hs1 hs2 h4
            have e : n1 = n2 :=
              String.ext (show n1.toList = n2.toList by rw [hdec1, hdec2, hs, hp])
            exact hne (by rw [e])
      | ghId o2 r2 =>
          have h2' : ownerOk o2 = true ∧ repoOk r2 = true := h2
          obtain ⟨X, hX⟩ := normKeyL_npm_shape n1 h1
          simp only [identRaw] at hl
          rw [hX, normKeyL_gh o2 r2 h2'.1 h2'.2] at hl
          exact head_clash _ _ _ _ 0 (by decide) (by decide) (by decide) hl
      | glId o2 r2 =>
          have h2' : ownerOk o2 = true ∧ repoOk r2 = true := h2
          obtain ⟨X, hX⟩ := normKeyL_npm_shape n1 h1
          simp only [identRaw] at hl
          rw [hX, normKeyL_gl o2 r2 h2'.1 h2'.2] at hl
          exact head_clash _ _ _ _ 0 (by decide) (by decide) (by decide) hl
  | ghId o1 r1 =>
      have h1' : ownerOk o1 = true ∧ repoOk r1 = true := h1
      cases i2 with
      | npmId n2 =>
          obtain ⟨X, hX⟩ := normKeyL_npm_shape n2 h2
          simp only [identRaw] at hl
          rw [hX, normKeyL_gh o1 r1 h1'.1 h1'.2] at hl
          exact head_clash _ _ _ _ 0 (by decide) (by decide) (by decide) hl
      | ghId o2 r2 =>
          have h2' : ownerOk o2 = true ∧ repoOk r2 = true := h2
          simp only [identRaw] at hl
          rw [normKeyL_gh o1 r1 h1'.1 h1'.2, normKeyL_gh o2 r2 h2'.1 h2'.2] at hl
          have h4 := List.append_cancel_left hl
          obtain ⟨ho, hr⟩ := sep_inj '-' _ _ _ _
            (all_not_mem (ownerOk_chars h1'.1) (by decide))
            (all_not_mem (ownerOk_chars h2'.1) (by decide)) h4
          have e1 : o1 = o2 := String.ext ho
          have e2 : r1 = r2 := String.ext hr
          exact hne (by rw [e1, e2])
      | glId o2 r2 =>
          have h2' : ownerOk o2 = true ∧ repoOk r2 = true := h2
          simp only [identRaw] at hl
          rw [normKeyL_gh o1 r1 h1'.1 h1'.2, normKeyL_gl o2 r2 h2'.1 h2'.2] at hl
          exact head_clash _ _ _ _ 3 (by decide) (by decide) (by decide) hl
  | glId o1 r1 =>
      have h1' : ownerOk o1 = true ∧ repoOk r1 = true := h1
      cases i2 with
      | npmId n2 =>
          obtain ⟨X, hX⟩ := normKeyL_npm_shape n2 h2
          simp only [identRaw] at hl
          rw [hX, normKeyL_gl o1 r1 h1'.1 h1'.2] at hl
          exact head_clash _ _ _ _ 0 (by decide) (by decide) (by decide) hl
      | ghId o2 r2 =>
          have h2' : ownerOk o2 = true ∧ repoOk r2 = true := h2
          simp only [identRaw] at hl
          rw [normKeyL_gl o1 r1 h1'.1 h1'.2, normKeyL_gh o2 r2 h2'.1 h2'.2] at hl
          exact head_clash _ _ _ _ 3 (by decide) (by decide) (by decide) hl
      | glId o2 r2 =>
          have h2' : ownerOk o2 = true ∧ repoOk r2 = true := h2
          simp only [identRaw] at hl
          rw [normKeyL_gl o1 r1 h1'.1 h1'.2, normKeyL_gl o2 r2 h2'.1 h2'.2] at hl
          have h4 := List.append_cancel_left hl
          obtain ⟨ho, hr⟩ := sep_inj '-' _ _ _ _
            (all_not_mem (ownerOk_chars h1'.1) (by decide))
            (all_not_mem (ownerOk_chars h2'.1) (by decide)) h4
          have e1 : o1 = o2 := String.ext ho
          have e2 : r1 = r2 := String.ext hr
          exact hne (by rw [e1, e2])

theorem normKey_injective_hyphenfree_witness :
    normKey (identRaw (Ident.npmId "@sveltejs/kit"))
      ≠ normKey (identRaw (Ident.ghId "sveltejs" "kit")) :=
  normKey_injective_hyphenfree (.npmId "@sveltejs/kit") (.ghId "sveltejs" "kit")
    (Or.inr ⟨"sveltejs".toList, "kit".toList, by decide, by decide, by decide,
      by decide, by decide⟩)
    ⟨by decide, by decide⟩ (by decide)

/-- C4 counterexample. The key template joins owner and repository with
a hyphen, and GitHub itself allows hyphens in both: the realistic
distinct pairs `("a","b-c")` and `("a-b","c")` yield the same raw key
`github-a-b-c`, hence the same normalized cache key. -/
theorem normKey_collision_on_hyphenated_owner :
    normKey (ghRawKey "a" "b-c") = normKey (ghRawKey "a-b" "c") ∧
    (("a" : String) == "a-b") = false ∧ (("b-c" : String) == "c") = false ∧
    hostSegOk "a" = true ∧ hostSegOk "b-c" = true ∧
    hostSegOk "a-b" = true ∧ hostSegOk "c" = true := by
  refine ⟨rfl, by decide, by decide, by decide, by decide, by decide, by decide⟩
